import Mathlib

/-!
Verification of the request-routing and parameter-resolution core of the
`cerces` web framework (TypeScript sources under `src/`), against its
natural-language specification.

The embedding models:
* `src/helpers.ts` : fixPathSlashes
* `src/parameters.ts` : parseCookie (with a model of ECMAScript
  decodeURIComponent) and resolveArgs (dependency flattening, caching,
  error aggregation)
* `src/routing.ts` : RouteNode / RouteMatcher (trie building and matching)
* `src/core.ts` : the middleware-chain construction and the dispatcher's
  response-as-signal catch logic in App.handle

JavaScript plain objects used as ordered string-keyed maps (the `args`
accumulator, `cookies`, `node.inner`, `node.routes`, the per-request
dependency `WeakMap` cache) are modelled as association lists in insertion
order: assignment to a fresh key appends, assignment to an existing key
updates in place, `Object.entries` iterates in that order.  Values stored
in these maps are never the JavaScript value `undefined`, so the source's
`m[k] === undefined` test is modelled as `jsGet m k = none`.
-/

namespace Cerces

/-- `m[k]` on a JS object modelled as an association list. -/
def jsGet {α β : Type} [DecidableEq α] : List (α × β) → α → Option β
  | [], _ => none
  | (k', v) :: rest, k => if k' = k then some v else jsGet rest k

/-- `m[k] = v` on a JS object: update in place if the key exists,
otherwise append (JS insertion order). -/
def jsSet {α β : Type} [DecidableEq α] (m : List (α × β)) (k : α) (v : β) :
    List (α × β) :=
  if (jsGet m k).isSome then
    m.map (fun p => if p.1 = k then (k, v) else p)
  else
    m ++ [(k, v)]

/-- The flatten loop of `resolveArgs` (parameters.ts:322-324 and 335-337):
`for (const [k, v] of Object.entries(sub)) if (m[k] === undefined) m[k] = v`.
First writer wins: keys already present are never overwritten. -/
def mergeAbsent {α β : Type} [DecidableEq α] (m sub : List (α × β)) :
    List (α × β) :=
  sub.foldl (fun acc kv => if (jsGet acc kv.1).isSome then acc else acc ++ [kv]) m

/-- `String.prototype.split` with a one-character separator, on char lists
(`"".split(c)` gives `[""]`, matching JS). -/
def splitOnChar (c : Char) : List Char → List (List Char)
  | [] => [[]]
  | x :: xs =>
    match splitOnChar c xs with
    | [] => [[]]
    | g :: gs => if x = c then [] :: g :: gs else (x :: g) :: gs

/-- `String.prototype.trim` on char lists (ASCII whitespace). -/
def jsTrim (l : List Char) : List Char :=
  ((l.dropWhile Char.isWhitespace).reverse.dropWhile Char.isWhitespace).reverse

/-- helpers.ts:42-48 `fixPathSlashes`, on char lists.  Translated line by
line from the source (each conditional rebinds `path`):

    if (path.length == 0 || path == "/") return "/"
    if (path[0] !== "/") path = "/" + path
    if (path.startsWith("//")) path = path.slice(1)
    if (path[path.length - 1] === "/") path = path.slice(0, -1)
    return path
-/
def fixPathSlashesL (p : List Char) : List Char :=
  if p = [] ∨ p = ['/'] then ['/']
  else
    let p := if p.head? ≠ some '/' then '/' :: p else p
    let p := if p.take 2 = ['/', '/'] then p.drop 1 else p
    let p := if p.getLast? = some '/' then p.dropLast else p
    p

/-- helpers.ts:42-48 `fixPathSlashes` on strings. -/
def fixPathSlashes (s : String) : String :=
  ⟨fixPathSlashesL s.data⟩

/-- One hexadecimal digit, as in the escape sequences interpreted by
ECMAScript `decodeURIComponent`. -/
def hexDigit (c : Char) : Option Nat :=
  if '0' ≤ c ∧ c ≤ '9' then some (c.toNat - 48)
  else if 'a' ≤ c ∧ c ≤ 'f' then some (c.toNat - 87)
  else if 'A' ≤ c ∧ c ≤ 'F' then some (c.toNat - 55)
  else none

/-- Model of ECMAScript `decodeURIComponent` on char lists: every `%XX`
escape contributes a byte, consecutive escaped bytes must form a valid
UTF-8 sequence (no truncated escapes, no bad hex digits, no continuation
errors, no overlong forms, no surrogates, no code points above 0x10FFFF);
unescaped characters pass through.  `none` models a thrown `URIError`. -/
def decodeChars : List Char → Option (List Char)
  | [] => some []
  | '%' :: a :: b :: cs =>
    match hexDigit a, hexDigit b with
    | some h, some l =>
      let b0 := 16 * h + l
      if b0 < 0x80 then
        (Char.ofNat b0 :: ·) <$> decodeChars cs
      else if b0 < 0xC2 then none
      else if b0 < 0xE0 then
        match cs with
        | '%' :: a1 :: b1 :: cs1 =>
          match hexDigit a1, hexDigit b1 with
          | some h1, some l1 =>
            let v1 := 16 * h1 + l1
            if 0x80 ≤ v1 ∧ v1 < 0xC0 then
              (Char.ofNat ((b0 - 0xC0) * 0x40 + (v1 - 0x80)) :: ·) <$> decodeChars cs1
            else none
          | _, _ => none
        | _ => none
      else if b0 < 0xF0 then
        match cs with
        | '%' :: a1 :: b1 :: '%' :: a2 :: b2 :: cs2 =>
          match hexDigit a1, hexDigit b1, hexDigit a2, hexDigit b2 with
          | some h1, some l1, some h2, some l2 =>
            let v1 := 16 * h1 + l1
            let v2 := 16 * h2 + l2
            let cp := (b0 - 0xE0) * 0x1000 + (v1 - 0x80) * 0x40 + (v2 - 0x80)
            if (0x80 ≤ v1 ∧ v1 < 0xC0) ∧ (0x80 ≤ v2 ∧ v2 < 0xC0) ∧
                0x800 ≤ cp ∧ ¬(0xD800 ≤ cp ∧ cp < 0xE000) then
              (Char.ofNat cp :: ·) <$> decodeChars cs2
            else none
          | _, _, _, _ => none
        | _ => none
      else if b0 < 0xF5 then
        match cs with
        | '%' :: a1 :: b1 :: '%' :: a2 :: b2 :: '%' :: a3 :: b3 :: cs3 =>
          match hexDigit a1, hexDigit b1, hexDigit a2, hexDigit b2,
              hexDigit a3, hexDigit b3 with
          | some h1, some l1, some h2, some l2, some h3, some l3 =>
            let v1 := 16 * h1 + l1
            let v2 := 16 * h2 + l2
            let v3 := 16 * h3 + l3
            let cp := (b0 - 0xF0) * 0x40000 + (v1 - 0x80) * 0x1000 +
              (v2 - 0x80) * 0x40 + (v3 - 0x80)
            if (0x80 ≤ v1 ∧ v1 < 0xC0) ∧ (0x80 ≤ v2 ∧ v2 < 0xC0) ∧
                (0x80 ≤ v3 ∧ v3 < 0xC0) ∧ 0x10000 ≤ cp ∧ cp ≤ 0x10FFFF then
              (Char.ofNat cp :: ·) <$> decodeChars cs3
            else none
          | _, _, _, _, _, _ => none
        | _ => none
      else none
    | _, _ => none
  | '%' :: _ => none
  | c :: cs => (c :: ·) <$> decodeChars cs

/-- Model of ECMAScript `decodeURIComponent` on strings. -/
def decodeURIComponent (s : String) : Option String :=
  (decodeChars s.data).map fun l => ⟨l⟩

/-- `pair.indexOf("=")` followed by the two slices (parameters.ts:205-208):
`none` when the pair holds no `=` (the `eqIndex < 0` continue), otherwise
the part before the first `=` and everything after it (later `=` kept). -/
def splitFirstEq : List Char → Option (List Char × List Char)
  | [] => none
  | '=' :: rest => some ([], rest)
  | c :: rest => (fun p => (c :: p.1, p.2)) <$> splitFirstEq rest

/-- parameters.ts:197-220 `parseCookie`.  `none`/empty input models the
falsy `cookieHeader` guard; the result models the `cookies` object in
insertion order. -/
def parseCookie (cookieHeader : Option String) : List (String × String) :=
  match cookieHeader with
  | none => []
  | some s =>
    if s = "" then []
    else
      (splitOnChar ';' s.data).foldl
        (fun cookies rawPair =>
          let pair := jsTrim rawPair
          if pair = [] then cookies
          else
            match splitFirstEq pair with
            | none => cookies
            | some (rawName, rawValue) =>
              let name : String := ⟨jsTrim rawName⟩
              let v0 := jsTrim rawValue
              let v1 :=
                if v0.head? = some '"' ∧ v0.getLast? = some '"' then
                  (v0.drop 1).dropLast
                else v0
              let v2 :=
                match decodeChars v1 with
                | some d => d
                | none => v1
              jsSet cookies name ⟨v2⟩)
        []

/-- C8: `parseCookie` splits the raw header on `;`, trims each pair,
splits on the first `=` keeping later `=` characters in the value, strips
one layer of surrounding double quotes, percent-decodes the value falling
back to the raw value when decoding throws, skips bare tokens with no `=`,
and lets the last occurrence of a repeated name win.  The conjuncts are
the specification's concrete P7 examples plus one witness each for the
keep-later-`=` and decode-fallback behaviours. -/
theorem c8_parseCookie :
    parseCookie (some "a=1; b=\"\"; c=\"3\"") = [("a", "1"), ("b", ""), ("c", "3")]
    ∧ parseCookie (some "a=1; a=2") = [("a", "2")]
    ∧ parseCookie (some "HttpOnly") = []
    ∧ parseCookie (some "a=%3B%20%3D%20%25") = [("a", "; = %")]
    ∧ parseCookie (some "a=b=c; theme=dark") = [("a", "b=c"), ("theme", "dark")]
    ∧ parseCookie (some "a=%E4%ZZ") = [("a", "%E4%ZZ")] := by
  refine ⟨by decide, by decide, by decide, by decide, by decide, by decide⟩

/-- C9 (code bug): the claim says every path normalized by
`fixPathSlashes` begins with a single leading `/` and has no trailing `/`
unless the whole path is `"/"` — matching the function's own doc comment
("Ensures the path starts with a single leading slash", "Removes any
trailing slashes", "Collapses multiple leading slashes into a single
slash").  The code removes at most one extra leading slash and at most one
trailing slash, and maps `"//"` to the empty string, violating all three
statements. -/
theorem c9_fixPathSlashes_failing :
    fixPathSlashes "//" = ""
    ∧ fixPathSlashes "a//" = "/a/"
    ∧ fixPathSlashes "///a" = "//a" := by
  refine ⟨by decide, by decide, by decide⟩

/-! ## Routing (src/routing.ts) -/

/-- A registered route, reduced to what `RouteMatcher` stores and returns:
an identifier standing for the route object and its route-level middleware
list (middleware objects are likewise identified by numbers). -/
structure Route where
  rid : Nat
  middleware : List Nat
deriving DecidableEq

/-- routing.ts:237-260 `RouteNode`: segment name, child map `inner`,
per-method route table, attached middleware, and placeholder names
collected from root to this node. -/
inductive RouteNode : Type where
  | mk (name : String) (inner : List (String × RouteNode))
      (routes : List (String × Route)) (middleware : List Nat)
      (paramNames : List String)

def RouteNode.name : RouteNode → String
  | .mk n _ _ _ _ => n

def RouteNode.inner : RouteNode → List (String × RouteNode)
  | .mk _ i _ _ _ => i

def RouteNode.routes : RouteNode → List (String × Route)
  | .mk _ _ r _ _ => r

def RouteNode.middleware : RouteNode → List Nat
  | .mk _ _ _ m _ => m

def RouteNode.paramNames : RouteNode → List String
  | .mk _ _ _ _ p => p

/-- routing.ts:244-250 `new RouteNode(name)`. -/
def RouteNode.new (name : String) : RouteNode :=
  .mk name [] [] [] []

def RouteNode.withInner (t : RouteNode) (i : List (String × RouteNode)) : RouteNode :=
  .mk t.name i t.routes t.middleware t.paramNames

def RouteNode.withRoutes (t : RouteNode) (r : List (String × Route)) : RouteNode :=
  .mk t.name t.inner r t.middleware t.paramNames

def RouteNode.withMiddleware (t : RouteNode) (m : List Nat) : RouteNode :=
  .mk t.name t.inner t.routes m t.paramNames

def RouteNode.withParamNames (t : RouteNode) (p : List String) : RouteNode :=
  .mk t.name t.inner t.routes t.middleware p

/-- routing.ts:257-259 `RouteNode.match`: the literal child if present,
else the wildcard child `"{}"`. -/
def RouteNode.matchChild (t : RouteNode) (seg : String) : Option RouteNode :=
  jsGet t.inner seg <|> jsGet t.inner "{}"

/-- `fixPathSlashes(path).split("/").slice(1)` (routing.ts:287, 325). -/
def pathSegs (path : String) : List String :=
  ((splitOnChar '/' (fixPathSlashesL path.data)).map fun l => (⟨l⟩ : String)).drop 1

/-- routing.ts:286-302 `RouteMatcher.get` (descend, creating nodes via
`touch`, normalizing `{...}` segments to the wildcard key `"{}"` while
collecting placeholder names, and storing the collected names at the
terminal node), composed with the caller's mutation `f` of the terminal
node: `push` (routing.ts:312-319) sets `routes[method]`, `set`
(routing.ts:304-310) sets `middleware`.  With no segments the loop body
never runs and `f` hits the current node without touching `paramNames`. -/
def getUpdate (t : RouteNode) (segs : List String) (acc : List String)
    (f : RouteNode → RouteNode) : RouteNode :=
  match segs with
  | [] => f t
  | seg :: rest =>
    let isW := seg.data.head? = some '{' ∧ seg.data.getLast? = some '}'
    let acc := if isW then acc ++ [(⟨(seg.data.drop 1).dropLast⟩ : String)] else acc
    let key := if isW then "{}" else seg
    let child :=
      match jsGet t.inner key with
      | some c => c
      | none => RouteNode.new key
    let child :=
      match rest with
      | [] => f (child.withParamNames acc)
      | _ :: _ => getUpdate child rest acc f
    t.withInner (jsSet t.inner key child)

/-- routing.ts:312-319 `RouteMatcher.push` for a single route. -/
def matcherPush (root : RouteNode) (method : String) (r : Route) (path : String) :
    RouteNode :=
  getUpdate root (pathSegs path) [] fun n => n.withRoutes (jsSet n.routes method r)

/-- routing.ts:304-310 `RouteMatcher.set` (null path addresses the root). -/
def matcherSet (root : RouteNode) (path : Option String) (mw : List Nat) :
    RouteNode :=
  match path with
  | none => root.withMiddleware mw
  | some p => getUpdate root (pathSegs p) [] fun n => n.withMiddleware mw

/-- The first component of `RouteMatcher.match`'s result:
`undefined` (no route), `null` (method not allowed) or the route. -/
inductive MatchedRoute where
  | notFound
  | methodNotAllowed
  | found (r : Route)
deriving DecidableEq

/-- The triple returned by routing.ts:321-351 `RouteMatcher.match`
(for method-not-allowed, `params` carries the `allow` header). -/
structure MatchResult where
  route : MatchedRoute
  params : List (String × String)
  middleware : List Nat
deriving DecidableEq

/-- The segment loop of routing.ts:329-350.  At the terminal node the
`paramNames`/`paramValues` zip models the index loop of lines 342-344
(for trees built by `getUpdate` the two lists have equal length). -/
def matchLoop (tree : RouteNode) (segs : List String) (paramValues : List String)
    (mw : List Nat) (method : String) : MatchResult :=
  match segs with
  | [] => ⟨.notFound, [], mw⟩
  | seg :: rest =>
    match tree.matchChild seg with
    | none => ⟨.notFound, [], mw⟩
    | some t =>
      let mw := mw ++ t.middleware
      let paramValues := if t.name = "{}" then paramValues ++ [seg] else paramValues
      match rest with
      | [] =>
        match jsGet t.routes method with
        | none =>
          if t.routes = [] then ⟨.notFound, [], mw⟩
          else
            ⟨.methodNotAllowed,
              [("allow", String.intercalate ", " (t.routes.map Prod.fst))], mw⟩
        | some r => ⟨.found r, t.paramNames.zip paramValues, mw ++ r.middleware⟩
      | _ :: _ => matchLoop t rest paramValues mw method

/-- routing.ts:321-351 `RouteMatcher.match`: middleware accumulation
starts from the root node's middleware (line 327). -/
def matcherMatch (root : RouteNode) (method : String) (path : String) : MatchResult :=
  matchLoop root (pathSegs path) [] root.middleware method

/-- C4: literal segments beat the wildcard child at every trie level:
with `/items/featured` and `/items/{id}` registered, `/items/featured`
matches the literal route and `/items/42` the wildcard route with
`id = "42"`. -/
theorem c4_route_tie_break (r1 r2 : Route) :
    matcherMatch
        (matcherPush (matcherPush (RouteNode.new "") "GET" r1 "/items/featured")
          "GET" r2 "/items/{id}")
        "GET" "/items/featured" = ⟨.found r1, [], r1.middleware⟩
    ∧ matcherMatch
        (matcherPush (matcherPush (RouteNode.new "") "GET" r1 "/items/featured")
          "GET" r2 "/items/{id}")
        "GET" "/items/42" = ⟨.found r2, [("id", "42")], r2.middleware⟩ :=
  ⟨rfl, rfl⟩

/-- `true` when walking the trie fails to match some request segment. -/
def walkFails (t : RouteNode) : List String → Bool
  | [] => false
  | s :: rest =>
    match t.matchChild s with
    | none => true
    | some c => walkFails c rest

/-- Middleware attached to the nodes successfully matched before the
walk stops (at a failure or at the end of the path). -/
def matchedMW (t : RouteNode) : List String → List Nat
  | [] => []
  | s :: rest =>
    match t.matchChild s with
    | none => []
    | some c => c.middleware ++ matchedMW c rest

theorem matchLoop_cons_some (t c : RouteNode) (s s' : String) (rest' : List String)
    (pv : List String) (mw : List Nat) (method : String)
    (hm : t.matchChild s = some c) :
    matchLoop t (s :: s' :: rest') pv mw method =
      matchLoop c (s' :: rest') (if c.name = "{}" then pv ++ [s] else pv)
        (mw ++ c.middleware) method := by
  simp [matchLoop, hm]

theorem matchLoop_fails (segs : List String) (t : RouteNode)
    (pv : List String) (mw : List Nat) (method : String)
    (h : walkFails t segs = true) :
    matchLoop t segs pv mw method = ⟨.notFound, [], mw ++ matchedMW t segs⟩ := by
  induction segs generalizing t pv mw with
  | nil => simp [walkFails] at h
  | cons s rest ih =>
    rw [walkFails] at h
    cases hm : t.matchChild s with
    | none => simp [matchLoop, hm, matchedMW]
    | some c =>
      rw [hm] at h
      cases rest with
      | nil => simp [walkFails] at h
      | cons s' rest' =>
        rw [matchLoop_cons_some t c s s' rest' pv mw method hm, ih c _ _ h]
        simp [matchedMW, hm]

/-- C7: when `RouteMatcher.match` fails on some segment of the request
path, it returns a not-found result whose middleware list is exactly the
root middleware followed by the middleware of every ancestor node matched
before the failing segment. -/
theorem c7_notfound_middleware (root : RouteNode) (method path : String)
    (h : walkFails root (pathSegs path) = true) :
    matcherMatch root method path =
      ⟨.notFound, [], root.middleware ++ matchedMW root (pathSegs path)⟩ :=
  matchLoop_fails _ _ _ _ _ h

/-- Witness for C7: a trie with routes under `/a/b/c`, middleware `[1]`
at the root and `[5]` at `/a`; the request `/a/x/c` fails at its second
segment and still surfaces `[1, 5]`. -/
theorem c7_notfound_middleware_witness :
    walkFails
        (matcherSet (matcherSet (matcherPush (RouteNode.new "") "GET" ⟨7, [9]⟩ "/a/b/c")
          (some "/a") [5]) none [1])
        (pathSegs "/a/x/c") = true
    ∧ matcherMatch
        (matcherSet (matcherSet (matcherPush (RouteNode.new "") "GET" ⟨7, [9]⟩ "/a/b/c")
          (some "/a") [5]) none [1])
        "GET" "/a/x/c" = ⟨.notFound, [], [1, 5]⟩ :=
  ⟨by decide,
    (c7_notfound_middleware
      (matcherSet (matcherSet (matcherPush (RouteNode.new "") "GET" ⟨7, [9]⟩ "/a/b/c")
        (some "/a") [5]) none [1])
      "GET" "/a/x/c" (by decide)).trans (by decide)⟩

/-! ## Middleware chain and dispatcher catch logic (src/core.ts) -/

/-- core.ts:146-154 `Middleware`: `handle(args, next)`.  `C` is the
request-context type, `R` the type a continuation produces. -/
structure Middleware (C R : Type) where
  handle : C → (Unit → R) → R

/-- The contents of the completed `nextMap` of core.ts:483-487 at key `j`
(`-1 ≤ j ≤ middleware.length - 1`; the entry at `-1` is exposed through
`buildNext`).  Before the loop, `nextMap[length - 1]` holds the terminal
continuation; iteration `i` stores `() => middleware[i].handle(baseArgs,
nextMap[i])` at key `i - 1`.  Because every stored closure dereferences
`nextMap` only when invoked — after the loop has completed — the entry at
`j < length - 1` is `() => middleware[j+1].handle(baseArgs, nextMap[j+1])`. -/
def nextMapAt {C R : Type} (base : C) (ms : List (Middleware C R))
    (tcont : Unit → R) (j : Nat) : Unit → R :=
  if h : j + 1 < ms.length then
    fun _ => (ms.get ⟨j + 1, h⟩).handle base (nextMapAt base ms tcont (j + 1))
  else tcont
termination_by ms.length - j
decreasing_by omega

/-- core.ts:483-488: the callable `next` that `App.handle` finally
invokes — the loop's last assignment (`nextMap[-1]`), i.e.
`() => middleware[0].handle(baseArgs, nextMap[0])`, or the terminal
continuation when the middleware list is empty. -/
def buildNext {C R : Type} (base : C) (ms : List (Middleware C R))
    (tcont : Unit → R) : Unit → R :=
  if h : 0 < ms.length then
    fun _ => (ms.get ⟨0, h⟩).handle base (nextMapAt base ms tcont 0)
  else tcont

/-- Modelled from the spec's middleware-chain contract (§4.5): given
`[m0, ..., mN]` and terminal `T`, the callable whose invocation runs
`m0.handle(ctx, next1)`, where `next1` runs `m1.handle(ctx, next2)`, …,
and `mN.handle` receives `T`. -/
def chainSpec {C R : Type} (base : C) (ms : List (Middleware C R))
    (tcont : Unit → R) : Unit → R :=
  match ms with
  | [] => tcont
  | m :: rest => fun _ => m.handle base (chainSpec base rest tcont)

theorem nextMapAt_eq {C R : Type} (base : C) (ms : List (Middleware C R))
    (tcont : Unit → R) (j : Nat) :
    nextMapAt base ms tcont j = chainSpec base (ms.drop (j + 1)) tcont := by
  have key : ∀ n j, ms.length - j ≤ n →
      nextMapAt base ms tcont j = chainSpec base (ms.drop (j + 1)) tcont := by
    intro n
    induction n with
    | zero =>
      intro j hj
      rw [nextMapAt, List.drop_eq_nil_of_le (by omega)]
      have h' : ¬(j + 1 < ms.length) := by omega
      simp [h', chainSpec]
    | succ n ih =>
      intro j hj
      rw [nextMapAt]
      by_cases h : j + 1 < ms.length
      · simp only [dif_pos h]
        rw [ih (j + 1) (by omega), List.drop_eq_getElem_cons h]
        rfl
      · simp only [dif_neg h]
        rw [List.drop_eq_nil_of_le (by omega)]
        rfl
  exact key (ms.length - j) j le_rfl

/-- C5: the dispatcher's `nextMap` loop builds exactly the nested
continuation chain of the contract: invoking the result runs `m0.handle`
with a next that runs `m1.handle`, and so on, the last middleware
receiving the terminal continuation; hence the first middleware is the
outermost layer, the last to touch the response on unwind. -/
theorem c5_middleware_chain {C R : Type} (base : C) (ms : List (Middleware C R))
    (tcont : Unit → R) :
    buildNext base ms tcont = chainSpec base ms tcont := by
  rw [buildNext]
  by_cases h : 0 < ms.length
  · simp only [dif_pos h]
    rw [nextMapAt_eq]
    cases ms with
    | nil => simp at h
    | cons m rest => rfl
  · simp only [dif_neg h]
    have : ms = [] := List.length_eq_zero.mp (by omega)
    subst this
    rfl

/-- A value raised (thrown) during request handling: either a response
object used as a signal, or any other error value. -/
inductive Thrown (R E : Type) where
  | resp (r : R)
  | other (e : E)

/-- The `{success, errors, args}`-relevant shape of a completed argument
resolution as consumed by core.ts:465-471: resolved args on success, the
aggregated error list otherwise. -/
inductive ParseInfoM (A L : Type) where
  | ok (args : A)
  | fail (errors : L)

/-- The body of the try block in core.ts:454-473: resolve arguments
(which may itself raise, e.g. from a dependency handler), then on success
run the route handler (whose plain return value is coerced to a response
by the route's response class, folded into `handler` here), and on
resolution failure produce the structured 422 response `errResp`. -/
def tryBody {R E A L : Type} (resolve : Except (Thrown R E) (ParseInfoM A L))
    (handler : A → Except (Thrown R E) R) (errResp : L → R) :
    Except (Thrown R E) R :=
  match resolve with
  | .error t => .error t
  | .ok (.ok args) => handler args
  | .ok (.fail errs) => .ok (errResp errs)

/-- core.ts:452-481: the route-branch terminal continuation, with its
inner catch (lines 474-480): a raised response object is returned as the
result; anything else is rethrown. -/
def routeNext {R E A L : Type} (resolve : Except (Thrown R E) (ParseInfoM A L))
    (handler : A → Except (Thrown R E) R) (errResp : L → R) :
    Except (Thrown R E) R :=
  match tryBody resolve handler errResp with
  | .error (.resp r) => .ok r
  | x => x

/-- core.ts:433-493 `App.handle`: run the middleware chain around the
terminal continuation; the outermost catch (lines 489-492) returns a
raised response object directly and passes any other raised value to the
configured error handler. -/
def handleApp {C R E : Type} (mws : List (Middleware C (Except (Thrown R E) R)))
    (base : C) (term : Unit → Except (Thrown R E) R) (errorHandler : E → R) : R :=
  match buildNext base mws term () with
  | .ok r => r
  | .error (.resp r) => r
  | .error (.other e) => errorHandler e

/-- C6: a response object raised during argument resolution, dependency
execution (first conjunct: the resolution step itself raises) or
route-handler execution (second conjunct) is caught and becomes the final
response of `handle` — for every error handler, so the error handler is
never consulted; a raised value that is not a response object is passed
to the error handler, whose return value becomes the response (third and
fourth conjuncts). -/
theorem c6_response_signal {C R E A L : Type} (base : C) (r : R) (e : E)
    (args : A) (handler : A → Except (Thrown R E) R) (errResp : L → R)
    (errorHandler : E → R) :
    handleApp [] base
        (fun _ => routeNext (Except.error (Thrown.resp r)) handler errResp)
        errorHandler = r
    ∧ handleApp [] base
        (fun _ => routeNext (Except.ok (ParseInfoM.ok (L := L) args))
          (fun _ => Except.error (Thrown.resp r)) errResp)
        errorHandler = r
    ∧ handleApp [] base
        (fun _ => routeNext (Except.error (Thrown.other e)) handler errResp)
        errorHandler = errorHandler e
    ∧ handleApp [] base
        (fun _ => routeNext (Except.ok (ParseInfoM.ok (L := L) args))
          (fun _ => Except.error (Thrown.other (R := R) e)) errResp)
        errorHandler = errorHandler e :=
  ⟨rfl, rfl, rfl, rfl⟩

/-! ## Argument resolution (src/parameters.ts resolveArgs) -/

/-- parameters.ts `ResolveArgsError` `{location, name, issues}`; the
validator's native issue payloads are opaque strings here. -/
structure ResolveArgsError where
  location : String
  name : String
  issues : List String
deriving DecidableEq

/-- parameters.ts `ResolveArgsInfo` `{success, errors, args}` for one
`resolveArgs` activation.  `V` is the type of resolved argument values;
values stored in `args` are never the JS value `undefined`. -/
structure ResolveArgsInfo (V : Type) where
  success : Bool
  errors : List ResolveArgsError
  args : List (String × V)

/-- A `{value, args}` record of the per-request dependency cache
(parameters.ts:233). -/
structure CacheEntry (V : Type) where
  value : V
  args : List (String × V)

/-- State threaded through a whole `resolveArgs` call tree: the shared
per-request cache (a WeakMap keyed by Dependency object identity,
modelled as `Nat` ids) plus two instrumentation logs: `refLog` records
the referenced dependency's identity each time a `@depends` parameter
entry is processed (parameters.ts:315-317, before the cache check), and
`execLog` each time a dependency handler is invoked (parameters.ts:331). -/
structure RunState (V : Type) where
  cache : List (Nat × CacheEntry V)
  refLog : List Nat
  execLog : List Nat

/-- A route/dependency parameter map in declaration order (the
`Object.entries(parameters)` sequence of parameters.ts:313).  A `leaf`
models a path/query/header/cookie/body parameter together with the
outcome of its `parsers[location](name, parameter)` call
(parameters.ts:243-311, 344) — a pure function of the declaration and
the fixed request, so carried as a value: the validator's success value
or its issue list.  A `depends` node models a `DependsParameter` with the
referenced Dependency inlined: its identity `id` (standing for the object
identity that keys the cache), its `useCache` flag, its own parameter map
`params`, and its handler as a function of the resolved sub-args (the
ambient base args `{req, env, ctx}` and the `later` registrar, both fixed
per request, are elided from the handler's input). -/
inductive RouteParameters (V : Type) : Type where
  | nil : RouteParameters V
  | leaf (name location : String) (parse : Except (List String) V)
      (rest : RouteParameters V) : RouteParameters V
  | depends (name : String) (id : Nat) (useCache : Bool)
      (params : RouteParameters V) (handle : List (String × V) → V)
      (rest : RouteParameters V) : RouteParameters V

/-- parameters.ts:313-356, the for-loop of `resolveArgs`, translated arm
by arm.  `acc` is this activation's `{success, errors, args}`; `st` is
the shared cache plus logs.  Notes: in the dependency-success arm the
source's `success &&= info.success` leaves `acc.success` unchanged since
`info.success` is `true` there; the cached arm (parameters.ts:318-326)
and the fresh arm both flatten sub-args with first-writer-wins
(`mergeAbsent`); `cache.set` (parameters.ts:338-339) stores the handler
value just assigned to `args[name]` together with the sub-args. -/
def resolveArgsLoop {V : Type} :
    RouteParameters V → ResolveArgsInfo V → RunState V →
      ResolveArgsInfo V × RunState V
  | .nil, acc, st => (acc, st)
  | .leaf name location parse rest, acc, st =>
    match parse with
    | .ok v =>
      resolveArgsLoop rest { acc with args := jsSet acc.args name v } st
    | .error issues =>
      resolveArgsLoop rest
        { acc with success := acc.success && false,
                   errors := acc.errors ++ [⟨location, name, issues⟩] } st
  | .depends name id useCache params handle rest, acc, st =>
    let st1 : RunState V := { st with refLog := st.refLog ++ [id] }
    match (if useCache then jsGet st1.cache id else none) with
    | some entry =>
      resolveArgsLoop rest
        { acc with
            args := mergeAbsent (jsSet acc.args name entry.value) entry.args } st1
    | none =>
      match resolveArgsLoop params ⟨true, [], []⟩ st1 with
      | (info, st2) =>
        if info.success then
          let v := handle info.args
          let st3 : RunState V :=
            { st2 with
                execLog := st2.execLog ++ [id],
                cache :=
                  if useCache then jsSet st2.cache id ⟨v, info.args⟩
                  else st2.cache }
          resolveArgsLoop rest
            { acc with args := mergeAbsent (jsSet acc.args name v) info.args } st3
        else
          resolveArgsLoop rest
            { acc with success := acc.success && info.success,
                       errors := acc.errors ++ info.errors } st2

/-- parameters.ts:222-358 `resolveArgs`: a fresh
`{success: true, errors: [], args: {}}` accumulator over the given shared
state. -/
def resolveArgs {V : Type} (ps : RouteParameters V) (st : RunState V) :
    ResolveArgsInfo V × RunState V :=
  resolveArgsLoop ps ⟨true, [], []⟩ st

/-- The state at the start of a request: empty cache, empty logs
(parameters.ts:237 `cache = cache ?? new WeakMap()`). -/
def initState {V : Type} : RunState V :=
  ⟨[], [], []⟩

/-- A dependency unit as referenced from a parameter tree (the fields of
a core.ts:127-144 `Dependency`, with `id` standing for object identity). -/
structure Dependency (V : Type) where
  id : Nat
  useCache : Bool
  params : RouteParameters V
  handle : List (String × V) → V

/-- Every dependency unit referenced in a parameter tree, directly or
via nested dependencies (with multiplicity). -/
def allDeps {V : Type} : RouteParameters V → List (Dependency V)
  | .nil => []
  | .leaf _ _ _ rest => allDeps rest
  | .depends _ i u ps h rest => ⟨i, u, ps, h⟩ :: (allDeps ps ++ allDeps rest)

/-- Well-formed identities: in JS the cache is keyed by object identity,
so distinct dependency units always have distinct keys; in the model this
is the requirement that a dependency's `id` determines the unit. -/
def WFDeps {V : Type} (t : RouteParameters V) : Prop :=
  ∀ d ∈ allDeps t, ∀ d' ∈ allDeps t, d.id = d'.id → d = d'

/-- The number of failing parameters declared in a tree, counting
parameters nested anywhere inside dependencies (with multiplicity). -/
def countFail {V : Type} : RouteParameters V → Nat
  | .nil => 0
  | .leaf _ _ (.ok _) rest => countFail rest
  | .leaf _ _ (.error _) rest => countFail rest + 1
  | .depends _ _ _ ps _ rest => countFail ps + countFail rest

/-- The C1 scenario: three sibling `@depends` parameters; the first and
third reference the same cached unit (identity 1) whose inner parameter
`x` resolves to `v1`, the second a distinct unit (identity 2) whose inner
parameter is also named `x` but resolves to `v2`. -/
def c1Tree {V : Type} (v1 v2 : V) (h1 h2 : List (String × V) → V) :
    RouteParameters V :=
  .depends "a" 1 true (.leaf "x" "query" (.ok v1) .nil) h1
    (.depends "b" 2 true (.leaf "x" "query" (.ok v2) .nil) h2
      (.depends "c" 1 true (.leaf "x" "query" (.ok v1) .nil) h1 .nil))

/-- C1: flattening copies a dependency's sub-args into the outer args
only when the name is absent, both after a fresh resolution (`a`, `b`)
and when reusing a cached entry (`c`); when two sibling branches resolve
the same inner name `x` to different values, the outer bag keeps the
first branch's value and resolution still succeeds (no exception: the
collision is not an error). -/
theorem c1_flatten_first_writer_wins {V : Type} (v1 v2 : V)
    (h1 h2 : List (String × V) → V) (_hne : v1 ≠ v2) :
    (resolveArgs (c1Tree v1 v2 h1 h2) initState).1.success = true
    ∧ jsGet (resolveArgs (c1Tree v1 v2 h1 h2) initState).1.args "x" = some v1
    ∧ jsGet (resolveArgs (c1Tree v1 v2 h1 h2) initState).1.args "a" =
        some (h1 [("x", v1)])
    ∧ jsGet (resolveArgs (c1Tree v1 v2 h1 h2) initState).1.args "b" =
        some (h2 [("x", v2)])
    ∧ jsGet (resolveArgs (c1Tree v1 v2 h1 h2) initState).1.args "c" =
        some (h1 [("x", v1)])
    ∧ (resolveArgs (c1Tree v1 v2 h1 h2) initState).1.errors = [] :=
  ⟨rfl, rfl, rfl, rfl, rfl, rfl⟩

/-- Witness for C1 at `v1 = 0 ≠ 1 = v2`. -/
theorem c1_flatten_first_writer_wins_witness :
    (0 : Nat) ≠ 1
    ∧ jsGet (resolveArgs (c1Tree 0 1 (fun _ => 7) (fun _ => 8)) initState).1.args "x" =
        some 0 :=
  ⟨by decide,
    (c1_flatten_first_writer_wins 0 1 (fun _ => 7) (fun _ => 8) (by decide)).2.1⟩

/-! ### Map lemmas -/

theorem jsGet_append_right {α β : Type} [DecidableEq α] {m : List (α × β)} {k : α}
    (l : List (α × β)) (h : jsGet m k = none) : jsGet (m ++ l) k = jsGet l k := by
  induction m with
  | nil => rfl
  | cons p tl ih =>
    obtain ⟨a, b⟩ := p
    rw [jsGet] at h
    by_cases ha : a = k
    · simp [ha] at h
    · rw [if_neg ha] at h
      simpa [jsGet, ha] using ih h

theorem jsGet_append_left {α β : Type} [DecidableEq α] {m : List (α × β)} {k : α}
    {b : β} (l : List (α × β)) (h : jsGet m k = some b) :
    jsGet (m ++ l) k = some b := by
  induction m with
  | nil => simp [jsGet] at h
  | cons p tl ih =>
    obtain ⟨a, c⟩ := p
    rw [jsGet] at h
    by_cases ha : a = k
    · rw [if_pos ha] at h
      simp [jsGet, ha, h]
    · rw [if_neg ha] at h
      simpa [jsGet, ha] using ih h

theorem jsGet_map_set_self {α β : Type} [DecidableEq α] (m : List (α × β)) (k : α)
    (v : β) (hp : (jsGet m k).isSome) :
    jsGet (m.map fun p => if p.1 = k then (k, v) else p) k = some v := by
  induction m with
  | nil => simp [jsGet] at hp
  | cons p tl ih =>
    obtain ⟨a, b⟩ := p
    rw [List.map_cons]
    by_cases ha : a = k
    · rw [if_pos (show (a, b).1 = k from ha), jsGet, if_pos rfl]
    · rw [if_neg (show ¬(a, b).1 = k from ha), jsGet, if_neg ha]
      rw [jsGet, if_neg ha] at hp
      exact ih hp

theorem jsGet_map_set_ne {α β : Type} [DecidableEq α] (m : List (α × β)) (k k' : α)
    (v : β) (h : k ≠ k') :
    jsGet (m.map fun p => if p.1 = k then (k, v) else p) k' = jsGet m k' := by
  induction m with
  | nil => rfl
  | cons p tl ih =>
    obtain ⟨a, b⟩ := p
    rw [List.map_cons]
    by_cases ha : a = k
    · rw [if_pos (show (a, b).1 = k from ha), jsGet, jsGet, if_neg h,
        if_neg (show ¬(a = k') from fun hh => h (ha ▸ hh))]
      exact ih
    · rw [if_neg (show ¬(a, b).1 = k from ha), jsGet, jsGet]
      by_cases ha' : a = k'
      · rw [if_pos ha', if_pos ha']
      · rw [if_neg ha', if_neg ha']
        exact ih

/-- The JS assignment law: after `m[k] = v`, lookup of `k` yields `v` and
lookup of any other key is unchanged. -/
theorem jsGet_jsSet {α β : Type} [DecidableEq α] (m : List (α × β)) (k k' : α)
    (v : β) :
    jsGet (jsSet m k v) k' = if k = k' then some v else jsGet m k' := by
  by_cases hp : (jsGet m k).isSome
  · rw [jsSet, if_pos hp]
    by_cases hk : k = k'
    · subst hk
      rw [if_pos rfl]
      exact jsGet_map_set_self m k v hp
    · rw [if_neg hk]
      exact jsGet_map_set_ne m k k' v hk
  · rw [jsSet, if_neg hp]
    have hnone : jsGet m k = none := by
      cases hg : jsGet m k with
      | none => rfl
      | some b => rw [hg] at hp; simp at hp
    by_cases hk : k = k'
    · subst hk
      rw [if_pos rfl, jsGet_append_right _ hnone, jsGet, if_pos rfl]
    · rw [if_neg hk]
      cases hg : jsGet m k' with
      | none =>
        rw [jsGet_append_right _ hg]
        simp [jsGet, hk, hg]
      | some b => exact jsGet_append_left _ hg

/-! ### Step lemmas for the `@depends` arm of `resolveArgsLoop` -/

theorem depends_step_cached {V : Type} (n : String) (i : Nat) (u : Bool)
    (ps : RouteParameters V) (hdl : List (String × V) → V)
    (rest : RouteParameters V) (acc : ResolveArgsInfo V) (st : RunState V)
    (entry : CacheEntry V)
    (hc : (if u then jsGet st.cache i else none) = some entry) :
    resolveArgsLoop (.depends n i u ps hdl rest) acc st =
      resolveArgsLoop rest
        { acc with args := mergeAbsent (jsSet acc.args n entry.value) entry.args }
        { st with refLog := st.refLog ++ [i] } := by
  simp only [resolveArgsLoop, hc]

theorem depends_step_fresh_ok {V : Type} (n : String) (i : Nat) (u : Bool)
    (ps : RouteParameters V) (hdl : List (String × V) → V)
    (rest : RouteParameters V) (acc : ResolveArgsInfo V) (st : RunState V)
    (info : ResolveArgsInfo V) (st2 : RunState V)
    (hc : (if u then jsGet st.cache i else none) = none)
    (hrec : resolveArgsLoop ps ⟨true, [], []⟩
      { st with refLog := st.refLog ++ [i] } = (info, st2))
    (hs : info.success = true) :
    resolveArgsLoop (.depends n i u ps hdl rest) acc st =
      resolveArgsLoop rest
        { acc with
            args := mergeAbsent (jsSet acc.args n (hdl info.args)) info.args }
        { st2 with
            execLog := st2.execLog ++ [i],
            cache :=
              if u then jsSet st2.cache i ⟨hdl info.args, info.args⟩
              else st2.cache } := by
  simp only [resolveArgsLoop, hc, hrec, hs, if_true]

theorem depends_step_fresh_fail {V : Type} (n : String) (i : Nat) (u : Bool)
    (ps : RouteParameters V) (hdl : List (String × V) → V)
    (rest : RouteParameters V) (acc : ResolveArgsInfo V) (st : RunState V)
    (info : ResolveArgsInfo V) (st2 : RunState V)
    (hc : (if u then jsGet st.cache i else none) = none)
    (hrec : resolveArgsLoop ps ⟨true, [], []⟩
      { st with refLog := st.refLog ++ [i] } = (info, st2))
    (hs : info.success = false) :
    resolveArgsLoop (.depends n i u ps hdl rest) acc st =
      resolveArgsLoop rest
        { acc with success := acc.success && info.success,
                   errors := acc.errors ++ info.errors } st2 := by
  simp only [resolveArgsLoop, hc, hrec, hs, Bool.false_eq_true, if_false]

/-! ### Domain lemmas: cache keys and handler executions added by a
resolution are identities of dependencies referenced in the tree -/

theorem resolveArgsLoop_cache_dom {V : Type} (t : RouteParameters V) :
    ∀ (acc : ResolveArgsInfo V) (st : RunState V) (i : Nat),
      jsGet (resolveArgsLoop t acc st).2.cache i = jsGet st.cache i
      ∨ ∃ d ∈ allDeps t, d.id = i := by
  induction t with
  | nil => intro acc st i; left; rfl
  | leaf name loc parse rest ih =>
    intro acc st i
    cases parse with
    | ok v => simpa [resolveArgsLoop, allDeps] using ih _ st i
    | error issues => simpa [resolveArgsLoop, allDeps] using ih _ st i
  | depends n j u ps hdl rest ihp ihr =>
    intro acc st i
    cases hc : (if u then jsGet st.cache j else none) with
    | some entry =>
      rw [depends_step_cached n j u ps hdl rest acc st entry hc]
      rcases ihr _ { st with refLog := st.refLog ++ [j] } i with h | ⟨d, hd, hdi⟩
      · left; exact h
      · right; exact ⟨d, by simp [allDeps]; tauto, hdi⟩
    | none =>
      rcases hrec : resolveArgsLoop ps ⟨true, [], []⟩
          { st with refLog := st.refLog ++ [j] } with ⟨info, st2⟩
      have hps := ihp ⟨true, [], []⟩ { st with refLog := st.refLog ++ [j] } i
      rw [hrec] at hps
      cases hs : info.success with
      | true =>
        rw [depends_step_fresh_ok n j u ps hdl rest acc st info st2 hc hrec hs]
        rcases ihr _ { st2 with
            execLog := st2.execLog ++ [j],
            cache := if u then jsSet st2.cache j ⟨hdl info.args, info.args⟩
              else st2.cache } i with h | ⟨d, hd, hdi⟩
        · rw [h]
          by_cases hij : j = i
          · right; exact ⟨⟨j, u, ps, hdl⟩, by simp [allDeps], hij⟩
          · cases hu : u with
            | true =>
              simp only [hu, if_true, jsGet_jsSet, if_neg hij] at *
              rcases hps with h2 | ⟨d, hd, hdi⟩
              · left; exact h2
              · right; exact ⟨d, by simp [allDeps]; tauto, hdi⟩
            | false =>
              simp only [hu, if_false] at *
              rcases hps with h2 | ⟨d, hd, hdi⟩
              · left; exact h2
              · right; exact ⟨d, by simp [allDeps]; tauto, hdi⟩
        · right; exact ⟨d, by simp [allDeps]; tauto, hdi⟩
      | false =>
        rw [depends_step_fresh_fail n j u ps hdl rest acc st info st2 hc hrec hs]
        rcases ihr _ st2 i with h | ⟨d, hd, hdi⟩
        · rw [h]
          rcases hps with h2 | ⟨d, hd, hdi⟩
          · left; exact h2
          · right; exact ⟨d, by simp [allDeps]; tauto, hdi⟩
        · right; exact ⟨d, by simp [allDeps]; tauto, hdi⟩

theorem resolveArgsLoop_exec_dom {V : Type} (t : RouteParameters V) :
    ∀ (acc : ResolveArgsInfo V) (st : RunState V) (i : Nat),
      (resolveArgsLoop t acc st).2.execLog.count i = st.execLog.count i
      ∨ ∃ d ∈ allDeps t, d.id = i := by
  induction t with
  | nil => intro acc st i; left; rfl
  | leaf name loc parse rest ih =>
    intro acc st i
    cases parse with
    | ok v => simpa [resolveArgsLoop, allDeps] using ih _ st i
    | error issues => simpa [resolveArgsLoop, allDeps] using ih _ st i
  | depends n j u ps hdl rest ihp ihr =>
    intro acc st i
    cases hc : (if u then jsGet st.cache j else none) with
    | some entry =>
      rw [depends_step_cached n j u ps hdl rest acc st entry hc]
      rcases ihr _ { st with refLog := st.refLog ++ [j] } i with h | ⟨d, hd, hdi⟩
      · left; exact h
      · right; exact ⟨d, by simp [allDeps]; tauto, hdi⟩
    | none =>
      rcases hrec : resolveArgsLoop ps ⟨true, [], []⟩
          { st with refLog := st.refLog ++ [j] } with ⟨info, st2⟩
      have hps := ihp ⟨true, [], []⟩ { st with refLog := st.refLog ++ [j] } i
      rw [hrec] at hps
      cases hs : info.success with
      | true =>
        rw [depends_step_fresh_ok n j u ps hdl rest acc st info st2 hc hrec hs]
        rcases ihr _ { st2 with
            execLog := st2.execLog ++ [j],
            cache := if u then jsSet st2.cache j ⟨hdl info.args, info.args⟩
              else st2.cache } i with h | ⟨d, hd, hdi⟩
        · rw [h]
          by_cases hij : j = i
          · right; exact ⟨⟨j, u, ps, hdl⟩, by simp [allDeps], hij⟩
          · rcases hps with h2 | ⟨d, hd, hdi⟩
            · left
              have h2' : List.count i st2.execLog = List.count i st.execLog := h2
              simp [List.count_append, List.count_singleton, hij, h2']
            · right; exact ⟨d, by simp [allDeps]; tauto, hdi⟩
        · right; exact ⟨d, by simp [allDeps]; tauto, hdi⟩
      | false =>
        rw [depends_step_fresh_fail n j u ps hdl rest acc st info st2 hc hrec hs]
        rcases ihr _ st2 i with h | ⟨d, hd, hdi⟩
        · rw [h]
          rcases hps with h2 | ⟨d, hd, hdi⟩
          · left; exact h2
          · right; exact ⟨d, by simp [allDeps]; tauto, hdi⟩
        · right; exact ⟨d, by simp [allDeps]; tauto, hdi⟩

/-- C10: when the recursive resolution of a dependency's own parameters
fails (parameters.ts:328-342, else-arm), the dependency's handler is not
invoked (no execution of its identity is logged beyond what was there),
no cache entry for that unit is stored, and no binding for the
dependency's parameter name — indeed no binding at all — is added to the
args accumulator; only the sub-resolution's aggregated errors are
appended.  The hypotheses say the unit is not already cached, that the
identities inside its own parameter tree are distinct from its own
(object identity of distinct Dependency instances), and that the
sub-resolution fails. -/
theorem c10_failed_dependency {V : Type} (n : String) (i : Nat) (u : Bool)
    (ps : RouteParameters V) (hdl : List (String × V) → V)
    (acc : ResolveArgsInfo V) (st : RunState V)
    (hc0 : jsGet st.cache i = none)
    (hids : ∀ d ∈ allDeps ps, d.id ≠ i)
    (hfail : (resolveArgsLoop ps ⟨true, [], []⟩
      { st with refLog := st.refLog ++ [i] }).1.success = false) :
    (resolveArgsLoop (.depends n i u ps hdl .nil) acc st).1.args = acc.args
    ∧ (resolveArgsLoop (.depends n i u ps hdl .nil) acc st).1.errors =
        acc.errors ++ (resolveArgsLoop ps ⟨true, [], []⟩
          { st with refLog := st.refLog ++ [i] }).1.errors
    ∧ jsGet (resolveArgsLoop (.depends n i u ps hdl .nil) acc st).2.cache i = none
    ∧ (resolveArgsLoop (.depends n i u ps hdl .nil) acc st).2.execLog.count i =
        st.execLog.count i := by
  have hc : (if u then jsGet st.cache i else none) = none := by
    cases u <;> simp [hc0]
  rcases hrec : resolveArgsLoop ps ⟨true, [], []⟩
      { st with refLog := st.refLog ++ [i] } with ⟨info, st2⟩
  have hs : info.success = false := by rw [hrec] at hfail; exact hfail
  rw [depends_step_fresh_fail n i u ps hdl .nil acc st info st2 hc hrec hs]
  refine ⟨rfl, rfl, ?_, ?_⟩
  · show jsGet st2.cache i = none
    have hdom := resolveArgsLoop_cache_dom ps ⟨true, [], []⟩
      { st with refLog := st.refLog ++ [i] } i
    rw [hrec] at hdom
    rcases hdom with h | ⟨d, hd, hdi⟩
    · exact h.trans hc0
    · exact absurd hdi (hids d hd)
  · show st2.execLog.count i = st.execLog.count i
    have hdom := resolveArgsLoop_exec_dom ps ⟨true, [], []⟩
      { st with refLog := st.refLog ++ [i] } i
    rw [hrec] at hdom
    rcases hdom with h | ⟨d, hd, hdi⟩
    · exact h
    · exact absurd hdi (hids d hd)

/-- Witness for C10: a cached dependency (identity 5) whose only
parameter fails to parse; resolving it from a fresh request state yields
no binding, no cache entry for identity 5, no handler execution, and
exactly the sub-resolution's error. -/
theorem c10_failed_dependency_witness :
    (resolveArgsLoop
        (.depends "dep" 5 true (.leaf "x" "query" (.error ["bad"]) .nil)
          (fun _ => (0 : Nat)) .nil)
        ⟨true, [], []⟩ initState).1.args = []
    ∧ jsGet (resolveArgsLoop
        (.depends "dep" 5 true (.leaf "x" "query" (.error ["bad"]) .nil)
          (fun _ => (0 : Nat)) .nil)
        ⟨true, [], []⟩ initState).2.cache 5 = none
    ∧ (resolveArgsLoop
        (.depends "dep" 5 true (.leaf "x" "query" (.error ["bad"]) .nil)
          (fun _ => (0 : Nat)) .nil)
        ⟨true, [], []⟩ initState).2.execLog.count 5 = 0 := by
  obtain ⟨h1, h2, h3, h4⟩ :=
    c10_failed_dependency "dep" 5 true (.leaf "x" "query" (.error ["bad"]) .nil)
      (fun _ => (0 : Nat)) ⟨true, [], []⟩ initState rfl
      (by simp [allDeps]) rfl
  exact ⟨h1, h3, h4⟩

/-- Cache soundness: every cached identity belongs to a dependency (of
the ambient collection `D`) whose own parameter tree has no failing
parameter — entries are only ever stored after a fully successful
resolution. -/
def InvC {V : Type} (D : List (Dependency V)) (c : List (Nat × CacheEntry V)) :
    Prop :=
  ∀ i, (jsGet c i).isSome → ∀ d ∈ D, d.id = i → countFail d.params = 0

/-- Error aggregation invariant: resolving a tree appends exactly
`countFail` error entries, succeeds exactly when that count is zero, and
preserves cache soundness. -/
theorem resolveArgsLoop_countFail {V : Type} (D : List (Dependency V))
    (hWF : ∀ d ∈ D, ∀ d' ∈ D, d.id = d'.id → d = d')
    (t : RouteParameters V) :
    ∀ (acc : ResolveArgsInfo V) (st : RunState V),
      (∀ d ∈ allDeps t, d ∈ D) → InvC D st.cache →
      ((resolveArgsLoop t acc st).1.errors.length =
          acc.errors.length + countFail t
        ∧ (resolveArgsLoop t acc st).1.success =
            (acc.success && decide (countFail t = 0))
        ∧ InvC D (resolveArgsLoop t acc st).2.cache) := by
  induction t with
  | nil =>
    intro acc st _ hinv
    exact ⟨by simp [resolveArgsLoop, countFail],
      by simp [resolveArgsLoop, countFail], hinv⟩
  | leaf name loc parse rest ih =>
    intro acc st hsub hinv
    have hsub' : ∀ d ∈ allDeps rest, d ∈ D := by
      intro d hd
      exact hsub d (by simpa [allDeps] using hd)
    cases parse with
    | ok v =>
      have h := ih { acc with args := jsSet acc.args name v } st hsub' hinv
      simp only [resolveArgsLoop, countFail]
      exact h
    | error issues =>
      have h := ih
        { acc with
            success := acc.success && false,
            errors := acc.errors ++ [⟨loc, name, issues⟩] } st hsub' hinv
      simp only [resolveArgsLoop, countFail]
      refine ⟨?_, ?_, h.2.2⟩
      · rw [h.1]
        simp
        omega
      · rw [h.2.1]
        simp
  | depends n j u ps hdl rest ihp ihr =>
    intro acc st hsub hinv
    have hhead : (⟨j, u, ps, hdl⟩ : Dependency V) ∈ D := hsub _ (by simp [allDeps])
    have hsubps : ∀ d ∈ allDeps ps, d ∈ D := by
      intro d hd
      refine hsub d ?_
      simp [allDeps]
      tauto
    have hsubr : ∀ d ∈ allDeps rest, d ∈ D := by
      intro d hd
      refine hsub d ?_
      simp [allDeps]
      tauto
    cases hc : (if u then jsGet st.cache j else none) with
    | some entry =>
      have hu : (jsGet st.cache j).isSome := by
        cases u with
        | false => simp at hc
        | true => simp only [if_true] at hc; simp [hc]
      have hps0 : countFail ps = 0 := hinv j hu ⟨j, u, ps, hdl⟩ hhead rfl
      rw [depends_step_cached n j u ps hdl rest acc st entry hc]
      have h := ihr
        { acc with args := mergeAbsent (jsSet acc.args n entry.value) entry.args }
        { st with refLog := st.refLog ++ [j] } hsubr hinv
      refine ⟨?_, ?_, h.2.2⟩
      · rw [h.1]
        simp [countFail, hps0]
      · rw [h.2.1]
        simp [countFail, hps0]
    | none =>
      rcases hrec : resolveArgsLoop ps ⟨true, [], []⟩
          { st with refLog := st.refLog ++ [j] } with ⟨info, st2⟩
      have IHP := ihp ⟨true, [], []⟩ { st with refLog := st.refLog ++ [j] }
        hsubps hinv
      rw [hrec] at IHP
      obtain ⟨IH1, IH2, IH3⟩ := IHP
      cases hs : info.success with
      | true =>
        have hps0 : countFail ps = 0 := by
          rw [hs] at IH2
          simpa using IH2.symm
        rw [depends_step_fresh_ok n j u ps hdl rest acc st info st2 hc hrec hs]
        have hinv3 : InvC D (if u then jsSet st2.cache j ⟨hdl info.args, info.args⟩
            else st2.cache) := by
          cases u with
          | false => simpa using IH3
          | true =>
            intro i hi d hd hdi
            rw [if_pos rfl, jsGet_jsSet] at hi
            by_cases hij : j = i
            · have hde : d = ⟨j, true, ps, hdl⟩ :=
                hWF d hd ⟨j, true, ps, hdl⟩ hhead (by rw [hdi, hij])
              rw [hde]
              exact hps0
            · rw [if_neg hij] at hi
              exact IH3 i hi d hd hdi
        have h := ihr
          { acc with args := mergeAbsent (jsSet acc.args n (hdl info.args)) info.args }
          { st2 with
              execLog := st2.execLog ++ [j],
              cache := if u then jsSet st2.cache j ⟨hdl info.args, info.args⟩
                else st2.cache } hsubr hinv3
        refine ⟨?_, ?_, h.2.2⟩
        · rw [h.1]
          simp [countFail, hps0]
        · rw [h.2.1]
          simp [countFail, hps0]
      | false =>
        have hpsne : countFail ps ≠ 0 := by
          rw [hs] at IH2
          intro h0
          rw [h0] at IH2
          simp at IH2
        rw [depends_step_fresh_fail n j u ps hdl rest acc st info st2 hc hrec hs]
        have h := ihr
          { acc with
              success := acc.success && info.success,
              errors := acc.errors ++ info.errors } st2 hsubr IH3
        refine ⟨?_, ?_, h.2.2⟩
        · rw [h.1]
          have hlen : info.errors.length = countFail ps := by simpa using IH1
          simp only [countFail, List.length_append, hlen]
          omega
        · rw [h.2.1]
          rw [hs]
          simp [countFail, hpsne, Nat.add_eq_zero]

/-- C3: for a parameter map with K independently-failing parameters
(counting parameters nested anywhere inside dependencies, with
multiplicity), `resolveArgs` returns exactly K error entries — each of
shape `{location, name, issues}` by the type of the flat top-level
`errors` list — and succeeds exactly when K = 0; no short-circuit on the
first failure.  The hypothesis is that distinct dependency units have
distinct identities, which the JS WeakMap keying by object identity
guarantees. -/
theorem c3_error_aggregation {V : Type} (t : RouteParameters V) (hWF : WFDeps t) :
    (resolveArgs t initState).1.errors.length = countFail t
    ∧ ((resolveArgs t initState).1.success = true ↔ countFail t = 0) := by
  obtain ⟨h1, h2, -⟩ := resolveArgsLoop_countFail (allDeps t) hWF t
    ⟨true, [], []⟩ initState (fun d hd => hd)
    (by intro i hi; simp [initState, jsGet] at hi)
  refine ⟨by simpa using h1, ?_⟩
  rw [resolveArgs, h2]
  simp

/-- The C3 witness scenario: one failing top-level parameter and one
failing parameter nested inside a dependency (K = 2). -/
def c3Tree : RouteParameters Nat :=
  .leaf "a" "query" (.error ["bad a"])
    (.depends "d" 1 true (.leaf "b" "header" (.error ["bad b"]) .nil)
      (fun _ => 0) .nil)

/-- Witness for C3: both nested and top-level failures are aggregated
(`countFail c3Tree = 2` by evaluation) and resolution fails. -/
theorem c3_error_aggregation_witness :
    ((resolveArgs c3Tree initState).1.errors.length = countFail c3Tree
      ∧ ((resolveArgs c3Tree initState).1.success = true ↔ countFail c3Tree = 0))
    ∧ countFail c3Tree = 2 :=
  ⟨c3_error_aggregation c3Tree (by
      intro d hd d' hd' _
      simp [c3Tree, allDeps] at hd hd'
      subst hd
      subst hd'
      rfl),
    rfl⟩

/-! ### Execution-count lemmas (claim C2) -/

theorem count_append_one (l : List Nat) (j i : Nat) :
    (l ++ [j]).count i = l.count i + if j = i then 1 else 0 := by
  by_cases hj : j = i <;> simp [List.count_append, List.count_singleton, hj]

theorem countFail_allDeps {V : Type} (t : RouteParameters V)
    (h : countFail t = 0) : ∀ d ∈ allDeps t, countFail d.params = 0 := by
  induction t with
  | nil => simp [allDeps]
  | leaf n l p rest ih =>
    cases p with
    | ok v =>
      rw [countFail] at h
      simpa [allDeps] using ih h
    | error issues => simp [countFail] at h
  | depends n j u ps hdl rest ihp ihr =>
    rw [countFail, Nat.add_eq_zero] at h
    intro d hd
    simp only [allDeps, List.mem_cons, List.mem_append] at hd
    rcases hd with rfl | hd | hd
    · exact h.1
    · exact ihp h.1 d hd
    · exact ihr h.2 d hd

theorem allDeps_sizeOf {V : Type} (t : RouteParameters V) :
    ∀ d ∈ allDeps t, sizeOf d.params < sizeOf t := by
  induction t with
  | nil => simp [allDeps]
  | leaf n l p rest ih =>
    intro d hd
    rw [allDeps] at hd
    have := ih d hd
    simp only [RouteParameters.leaf.sizeOf_spec]
    omega
  | depends n j u ps hdl rest ihp ihr =>
    intro d hd
    simp only [allDeps, List.mem_cons, List.mem_append] at hd
    simp only [RouteParameters.depends.sizeOf_spec]
    rcases hd with rfl | hd | hd
    · simp
      omega
    · have := ihp d hd
      omega
    · have := ihr d hd
      omega

/-- A dependency unit never occurs inside its own parameter tree (the
parameter graph is a finite tree built before any resolution). -/
theorem not_self_dep {V : Type} (j : Nat) (u : Bool) (ps : RouteParameters V)
    (hdl : List (String × V) → V) :
    (⟨j, u, ps, hdl⟩ : Dependency V) ∉ allDeps ps := by
  intro hmem
  have := allDeps_sizeOf ps _ hmem
  simp at this

theorem isSome_jsGet_jsSet {α β : Type} [DecidableEq α] (m : List (α × β))
    (k i : α) (v : β) (h : (jsGet m i).isSome) :
    (jsGet (jsSet m k v) i).isSome := by
  rw [jsGet_jsSet]
  by_cases hk : k = i <;> simp [hk, h]

/-- Resolution only ever appends to the reference log. -/
theorem resolveArgsLoop_ref_mono {V : Type} (t : RouteParameters V) :
    ∀ (acc : ResolveArgsInfo V) (st : RunState V) (i : Nat),
      st.refLog.count i ≤ (resolveArgsLoop t acc st).2.refLog.count i := by
  induction t with
  | nil => intro acc st i; exact le_rfl
  | leaf n l p rest ih =>
    intro acc st i
    cases p with
    | ok v => simpa [resolveArgsLoop] using ih _ st i
    | error issues => simpa [resolveArgsLoop] using ih _ st i
  | depends n j u ps hdl rest ihp ihr =>
    intro acc st i
    have hst1 : st.refLog.count i ≤
        (st.refLog ++ [j]).count i := by
      rw [count_append_one]
      omega
    cases hc : (if u then jsGet st.cache j else none) with
    | some entry =>
      rw [depends_step_cached n j u ps hdl rest acc st entry hc]
      exact hst1.trans
        (ihr { acc with args := mergeAbsent (jsSet acc.args n entry.value) entry.args }
          { st with refLog := st.refLog ++ [j] } i)
    | none =>
      rcases hrec : resolveArgsLoop ps ⟨true, [], []⟩
          { st with refLog := st.refLog ++ [j] } with ⟨info, st2⟩
      have hps := ihp ⟨true, [], []⟩ { st with refLog := st.refLog ++ [j] } i
      rw [hrec] at hps
      cases hs : info.success with
      | true =>
        rw [depends_step_fresh_ok n j u ps hdl rest acc st info st2 hc hrec hs]
        exact (hst1.trans hps).trans
          (ihr { acc with args := mergeAbsent (jsSet acc.args n (hdl info.args)) info.args }
            { st2 with
                execLog := st2.execLog ++ [j],
                cache := if u then jsSet st2.cache j ⟨hdl info.args, info.args⟩
                  else st2.cache } i)
      | false =>
        rw [depends_step_fresh_fail n j u ps hdl rest acc st info st2 hc hrec hs]
        exact (hst1.trans hps).trans
          (ihr { acc with
              success := acc.success && info.success,
              errors := acc.errors ++ info.errors } st2 i)

/-- Resolution never removes cache entries. -/
theorem resolveArgsLoop_cache_mono {V : Type} (t : RouteParameters V) :
    ∀ (acc : ResolveArgsInfo V) (st : RunState V) (i : Nat),
      (jsGet st.cache i).isSome →
      (jsGet (resolveArgsLoop t acc st).2.cache i).isSome := by
  induction t with
  | nil => intro acc st i h; exact h
  | leaf n l p rest ih =>
    intro acc st i h
    cases p with
    | ok v => simpa [resolveArgsLoop] using ih _ st i h
    | error issues => simpa [resolveArgsLoop] using ih _ st i h
  | depends n j u ps hdl rest ihp ihr =>
    intro acc st i h
    cases hc : (if u then jsGet st.cache j else none) with
    | some entry =>
      rw [depends_step_cached n j u ps hdl rest acc st entry hc]
      exact ihr _ _ i h
    | none =>
      rcases hrec : resolveArgsLoop ps ⟨true, [], []⟩
          { st with refLog := st.refLog ++ [j] } with ⟨info, st2⟩
      have hps := ihp ⟨true, [], []⟩ { st with refLog := st.refLog ++ [j] } i h
      rw [hrec] at hps
      cases hs : info.success with
      | true =>
        rw [depends_step_fresh_ok n j u ps hdl rest acc st info st2 hc hrec hs]
        refine ihr _ _ i ?_
        cases hu : u with
        | false => simpa using hps
        | true => exact isSome_jsGet_jsSet st2.cache j i _ hps
      | false =>
        rw [depends_step_fresh_fail n j u ps hdl rest acc st info st2 hc hrec hs]
        exact ihr _ _ i hps

/-- The cache/execution-count invariant for cache-enabled units: a
cache-enabled unit has executed exactly once if it is cached and never
otherwise, and a cached unit's whole subtree has been referenced (its
cache-enabled members being cached too). -/
def Inv2on {V : Type} (D : List (Dependency V)) (st : RunState V) : Prop :=
  ∀ d ∈ D, d.useCache = true →
    (st.execLog.count d.id = if (jsGet st.cache d.id).isSome then 1 else 0)
    ∧ ((jsGet st.cache d.id).isSome →
        ∀ d' ∈ allDeps d.params,
          1 ≤ st.refLog.count d'.id
          ∧ (d'.useCache = true → (jsGet st.cache d'.id).isSome))

/-- Handler-execution bookkeeping for a whole resolution, under
well-formed identities and a failure-free tree: the cache invariant is
preserved, every unit in the tree ends up referenced at least once (and
cached, if cache-enabled), and for cache-disabled units the number of
handler executions grows exactly as the number of processed references. -/
theorem resolveArgsLoop_cacheCount {V : Type} (D : List (Dependency V))
    (hWF : ∀ d ∈ D, ∀ d' ∈ D, d.id = d'.id → d = d')
    (hD0 : ∀ d ∈ D, countFail d.params = 0)
    (t : RouteParameters V) :
    ∀ (acc : ResolveArgsInfo V) (st : RunState V),
      (∀ d ∈ allDeps t, d ∈ D) → countFail t = 0 → Inv2on D st →
      (Inv2on D (resolveArgsLoop t acc st).2
        ∧ (∀ d ∈ allDeps t,
            1 ≤ (resolveArgsLoop t acc st).2.refLog.count d.id
            ∧ (d.useCache = true →
                (jsGet (resolveArgsLoop t acc st).2.cache d.id).isSome))
        ∧ (∀ d ∈ D, d.useCache = false →
            (resolveArgsLoop t acc st).2.execLog.count d.id
              + st.refLog.count d.id =
            (resolveArgsLoop t acc st).2.refLog.count d.id
              + st.execLog.count d.id)) := by
  induction t with
  | nil =>
    intro acc st _ _ hinv
    exact ⟨hinv, by simp [allDeps],
      fun d _ _ => by dsimp only [resolveArgsLoop]; omega⟩
  | leaf n l p rest ih =>
    intro acc st hsub h0 hinv
    cases p with
    | ok v =>
      rw [countFail] at h0
      have hsub' : ∀ d ∈ allDeps rest, d ∈ D := by
        intro d hd
        exact hsub d (by simpa [allDeps] using hd)
      simp only [resolveArgsLoop]
      exact ih { acc with args := jsSet acc.args n v } st hsub' h0 hinv
    | error issues => simp [countFail] at h0
  | depends n j u ps hdl rest ihp ihr =>
    intro acc st hsub h0 hinv
    have hhead : (⟨j, u, ps, hdl⟩ : Dependency V) ∈ D := hsub _ (by simp [allDeps])
    rw [countFail, Nat.add_eq_zero] at h0
    obtain ⟨hps0, hr0⟩ := h0
    have hsubps : ∀ d ∈ allDeps ps, d ∈ D := by
      intro d hd
      refine hsub d ?_
      simp [allDeps]
      tauto
    have hsubr : ∀ d ∈ allDeps rest, d ∈ D := by
      intro d hd
      refine hsub d ?_
      simp [allDeps]
      tauto
    have hinv1 : Inv2on D { st with refLog := st.refLog ++ [j] } := by
      intro d hd hdu
      obtain ⟨e1, e2⟩ := hinv d hd hdu
      refine ⟨e1, fun hcd d' hd' => ⟨?_, (e2 hcd d' hd').2⟩⟩
      have h1 := (e2 hcd d' hd').1
      show 1 ≤ (st.refLog ++ [j]).count d'.id
      rw [count_append_one]
      omega
    cases hc : (if u then jsGet st.cache j else none) with
    | some entry =>
      have hu : u = true := by
        cases u
        · simp at hc
        · rfl
      subst hu
      have hcc : jsGet st.cache j = some entry := by simpa using hc
      have hsome : (jsGet st.cache j).isSome := by simp [hcc]
      rw [depends_step_cached n j true ps hdl rest acc st entry hc]
      set acc1 : ResolveArgsInfo V :=
        { acc with args := mergeAbsent (jsSet acc.args n entry.value) entry.args }
        with hacc1
      set st1 : RunState V := { st with refLog := st.refLog ++ [j] } with hst1
      obtain ⟨hie, hsubtree⟩ := hinv ⟨j, true, ps, hdl⟩ hhead rfl
      obtain ⟨A', B', E'⟩ := ihr acc1 st1 hsubr hr0 hinv1
      refine ⟨A', ?_, ?_⟩
      · intro d hd
        simp only [allDeps, List.mem_cons, List.mem_append] at hd
        rcases hd with rfl | hd | hd
        · refine ⟨?_, fun _ => ?_⟩
          · have ha : 1 ≤ (st.refLog ++ [j]).count j := by
              rw [count_append_one]
              simp
            exact ha.trans (resolveArgsLoop_ref_mono rest acc1 st1 j)
          · exact resolveArgsLoop_cache_mono rest acc1 st1 j hsome
        · obtain ⟨r1, r2⟩ := hsubtree hsome d hd
          refine ⟨?_, fun hdu => ?_⟩
          · have ha : 1 ≤ (st.refLog ++ [j]).count d.id := by
              rw [count_append_one]
              omega
            exact ha.trans (resolveArgsLoop_ref_mono rest acc1 st1 d.id)
          · exact resolveArgsLoop_cache_mono rest acc1 st1 d.id (r2 hdu)
        · exact B' d hd
      · intro d hd hdu
        have hdj : d.id ≠ j := by
          intro hdj
          have hde : d = ⟨j, true, ps, hdl⟩ := hWF d hd _ hhead (by rw [hdj])
          rw [hde] at hdu
          simp at hdu
        have hE := E' d hd hdu
        have h1 : st1.refLog.count d.id = st.refLog.count d.id := by
          show (st.refLog ++ [j]).count d.id = st.refLog.count d.id
          rw [count_append_one, if_neg (fun h => hdj h.symm)]
          omega
        have h2 : st1.execLog.count d.id = st.execLog.count d.id := rfl
        rw [h1, h2] at hE
        exact hE
    | none =>
      rcases hrec : resolveArgsLoop ps ⟨true, [], []⟩
          { st with refLog := st.refLog ++ [j] } with ⟨info, st2⟩
      have hsucc0 := (resolveArgsLoop_countFail D hWF ps ⟨true, [], []⟩
        { st with refLog := st.refLog ++ [j] } hsubps
        (fun i _ d hd _ => hD0 d hd)).2.1
      rw [hrec] at hsucc0
      have hs : info.success = true := by
        rw [hsucc0]
        simp [hps0]
      obtain ⟨A2, B2, E2⟩ := ihp ⟨true, [], []⟩
        { st with refLog := st.refLog ++ [j] } hsubps hps0 hinv1
      rw [hrec] at A2 B2 E2
      dsimp only at A2 B2 E2
      have hmono1 : ∀ i, (st.refLog ++ [j]).count i ≤ st2.refLog.count i := by
        intro i
        have h := resolveArgsLoop_ref_mono ps ⟨true, [], []⟩
          { st with refLog := st.refLog ++ [j] } i
        rw [hrec] at h
        exact h
      have hj2 : jsGet st2.cache j = jsGet st.cache j := by
        have hjdom := resolveArgsLoop_cache_dom ps ⟨true, [], []⟩
          { st with refLog := st.refLog ++ [j] } j
        rw [hrec] at hjdom
        rcases hjdom with h | ⟨d, hd, hdi⟩
        · exact h
        · exfalso
          have hde : d = ⟨j, u, ps, hdl⟩ := hWF d (hsubps d hd) _ hhead (by rw [hdi])
          rw [hde] at hd
          exact not_self_dep j u ps hdl hd
      rw [depends_step_fresh_ok n j u ps hdl rest acc st info st2 hc hrec hs]
      set ce : CacheEntry V := ⟨hdl info.args, info.args⟩ with hce
      set c3 : List (Nat × CacheEntry V) :=
        if u then jsSet st2.cache j ce else st2.cache with hc3
      set st3 : RunState V :=
        { st2 with
            execLog := st2.execLog ++ [j],
            cache := c3 } with hst3d
      set acc3 : ResolveArgsInfo V :=
        { acc with
            args := mergeAbsent (jsSet acc.args n (hdl info.args)) info.args }
        with hacc3
      have hc3mono : ∀ i, (jsGet st2.cache i).isSome → (jsGet c3 i).isSome := by
        intro i hi
        rw [hc3]
        cases u with
        | false => simpa using hi
        | true => simpa using isSome_jsGet_jsSet st2.cache j i ce hi
      have hc3ne : ∀ i, j ≠ i → jsGet c3 i = jsGet st2.cache i := by
        intro i hji
        rw [hc3]
        cases u with
        | false => simp
        | true => simp [jsGet_jsSet, hji]
      have hinv3 : Inv2on D st3 := by
        intro d hd hdu
        by_cases hdj : d.id = j
        · have hde : d = ⟨j, u, ps, hdl⟩ := hWF d hd _ hhead (by rw [hdj])
          have hut : u = true := by rw [hde] at hdu; exact hdu
          have hj2n : jsGet st2.cache j = none := by
            rw [hj2]
            rw [hut] at hc
            simpa using hc
          have hex2 : st2.execLog.count j = 0 := by
            have h := (A2 ⟨j, u, ps, hdl⟩ hhead hut).1
            rw [hj2n] at h
            simpa using h
          have hc3j : jsGet c3 j = some ce := by
            rw [hc3, hut]
            simp [jsGet_jsSet]
          refine ⟨?_, fun _ d' hd' => ?_⟩
          · show (st2.execLog ++ [j]).count d.id = if (jsGet c3 d.id).isSome then 1 else 0
            rw [hdj, count_append_one, hex2, hc3j]
            simp
          · have hdp : d.params = ps := by rw [hde]
            rw [hdp] at hd'
            obtain ⟨r1, r2⟩ := B2 d' hd'
            exact ⟨r1, fun hdu' => hc3mono d'.id (r2 hdu')⟩
        · obtain ⟨e1, e2⟩ := A2 d hd hdu
          have hcne : jsGet c3 d.id = jsGet st2.cache d.id :=
            hc3ne d.id (fun h => hdj h.symm)
          refine ⟨?_, ?_⟩
          · show (st2.execLog ++ [j]).count d.id = if (jsGet c3 d.id).isSome then 1 else 0
            rw [count_append_one, if_neg (fun h => hdj h.symm), hcne]
            omega
          · show (jsGet c3 d.id).isSome = true → _
            rw [hcne]
            intro hcd d' hd'
            obtain ⟨r1, r2⟩ := e2 hcd d' hd'
            exact ⟨r1, fun hdu' => hc3mono d'.id (r2 hdu')⟩
      obtain ⟨A', B', E'⟩ := ihr acc3 st3 hsubr hr0 hinv3
      refine ⟨A', ?_, ?_⟩
      · intro d hd
        simp only [allDeps, List.mem_cons, List.mem_append] at hd
        rcases hd with rfl | hd | hd
        · refine ⟨?_, fun hdu => ?_⟩
          · have ha : 1 ≤ (st.refLog ++ [j]).count j := by
              rw [count_append_one]
              simp
            have hb : (1 : Nat) ≤ st2.refLog.count j := ha.trans (hmono1 j)
            exact hb.trans (resolveArgsLoop_ref_mono rest acc3 st3 j)
          · have hut : u = true := hdu
            have hc3j : jsGet c3 j = some ce := by
              rw [hc3, hut]
              simp [jsGet_jsSet]
            refine resolveArgsLoop_cache_mono rest acc3 st3 j ?_
            show (jsGet c3 j).isSome = true
            rw [hc3j]
            rfl
        · obtain ⟨r1, r2⟩ := B2 d hd
          refine ⟨?_, fun hdu => ?_⟩
          · exact r1.trans (resolveArgsLoop_ref_mono rest acc3 st3 d.id)
          · exact resolveArgsLoop_cache_mono rest acc3 st3 d.id (hc3mono d.id (r2 hdu))
        · exact B' d hd
      · intro d hd hdu
        have hE2 := E2 d hd hdu
        have hE' := E' d hd hdu
        have h1 : (st.refLog ++ [j]).count d.id =
            st.refLog.count d.id + if j = d.id then 1 else 0 := count_append_one _ _ _
        have h3 : st3.execLog.count d.id =
            st2.execLog.count d.id + if j = d.id then 1 else 0 := count_append_one _ _ _
        have h4 : st3.refLog.count d.id = st2.refLog.count d.id := rfl
        rw [h1] at hE2
        rw [h3, h4] at hE'
        by_cases hjd : j = d.id <;> simp only [hjd, if_pos, if_neg] at hE2 hE' <;> omega

/-- C2: within one `resolveArgs` call sharing one cache, for every
dependency unit in the tree: if `useCache` is enabled its handler
executes exactly once, and if `useCache` is disabled its handler executes
exactly N times, where N is the number of references to the unit
processed during the call (`refLog`: one entry per `@depends` parameter
entry reaching parameters.ts:315, whether served from cache or resolved
fresh — references inside a subtree skipped by a cache hit are never
processed).  Hypotheses: identities are well-formed (`WFDeps`, the JS
object-identity guarantee) and the tree has no failing parameter, so
every reference actually resolves. -/
theorem c2_dependency_cache {V : Type} (t : RouteParameters V)
    (hWF : WFDeps t) (h0 : countFail t = 0) :
    ∀ d ∈ allDeps t,
      (d.useCache = true →
        (resolveArgs t initState).2.execLog.count d.id = 1)
      ∧ (d.useCache = false →
        (resolveArgs t initState).2.execLog.count d.id =
          (resolveArgs t initState).2.refLog.count d.id) := by
  have hD0 := countFail_allDeps t h0
  have hInit : Inv2on (allDeps t) (initState (V := V)) := by
    intro d _ _
    constructor
    · show ([] : List Nat).count d.id =
        if (jsGet ([] : List (Nat × CacheEntry V)) d.id).isSome then 1 else 0
      simp [jsGet]
    · intro h
      simp [initState, jsGet] at h
  obtain ⟨A, B, E⟩ := resolveArgsLoop_cacheCount (allDeps t) hWF hD0 t
    ⟨true, [], []⟩ initState (fun _ hd => hd) h0 hInit
  intro d hd
  constructor
  · intro hu
    have hcached := (B d hd).2 hu
    have h := (A d hd hu).1
    rw [if_pos hcached] at h
    exact h
  · intro hu
    have h := E d hd hu
    show (resolveArgsLoop t ⟨true, [], []⟩ initState).2.execLog.count d.id =
      (resolveArgsLoop t ⟨true, [], []⟩ initState).2.refLog.count d.id
    simpa [initState] using h

/-- The C2 witness scenario: a cache-enabled unit (identity 1) referenced
twice and a cache-disabled unit (identity 2) referenced twice, as
siblings. -/
def c2Tree : RouteParameters Nat :=
  .depends "a" 1 true (.leaf "x" "query" (.ok 10) .nil) (fun _ => 1)
    (.depends "b" 2 false (.leaf "y" "query" (.ok 20) .nil) (fun _ => 2)
      (.depends "c" 1 true (.leaf "x" "query" (.ok 10) .nil) (fun _ => 1)
        (.depends "e" 2 false (.leaf "y" "query" (.ok 20) .nil) (fun _ => 2)
          .nil)))

/-- Witness for C2: on `c2Tree` the cached unit executes once despite two
references, the uncached unit once per reference (twice). -/
theorem c2_dependency_cache_witness :
    ((resolveArgs c2Tree initState).2.execLog.count 1 = 1
      ∧ (resolveArgs c2Tree initState).2.execLog.count 2 =
          (resolveArgs c2Tree initState).2.refLog.count 2)
    ∧ (resolveArgs c2Tree initState).2.refLog.count 1 = 2
    ∧ (resolveArgs c2Tree initState).2.refLog.count 2 = 2 := by
  have hWF : WFDeps c2Tree := by
    intro d hd d' hd' hid
    simp [c2Tree, allDeps] at hd hd'
    rcases hd with rfl | rfl | rfl | rfl <;>
      rcases hd' with rfl | rfl | rfl | rfl <;> simp_all
  have h := c2_dependency_cache c2Tree hWF rfl
  refine ⟨⟨?_, ?_⟩, by decide, by decide⟩
  · exact (h ⟨1, true, .leaf "x" "query" (.ok 10) .nil, fun _ => 1⟩
      (by simp [c2Tree, allDeps])).1 rfl
  · exact (h ⟨2, false, .leaf "y" "query" (.ok 20) .nil, fun _ => 2⟩
      (by simp [c2Tree, allDeps])).2 rfl

end Cerces
